import Mathlib

/-!
Verification development for the SpotPages compact tree navigator and
game-state reconstructor.  The definitions below are shallow embeddings of
the TypeScript sources:

* `src/utils/poker-utils.ts` — position names, absolute stack
  reconstruction (`calculatePlayerStackAbsolute`), all-in detection
  (`isActionAllIn`);
* the `PokerTablePreview` component — pot and per-street contribution
  reconstruction (`calculatePotAndContributions`);
* `src/utils/compact-tree-navigator.ts` — the `CompactTreeNavigator`
  class (breadcrumbs, available actions, navigate-by-path, terminal-node
  enumeration) and `CompactTreeUtils.validateCompactTree`;
* `src/types/optimized-tree.ts` — the compact node/action schema and the
  bit-flag terminal test.

Modelling conventions: JavaScript numbers holding chip amounts are
modelled as `Int` (they are integral minor currency units in this code
base); player indices, streets and depths as `Nat`; absent optional
fields as `none`; the JavaScript truthiness tests that the source applies
to optional strings (`if (action.n)`, `while (currentNode.p)`) treat both
an absent value and the empty string as false, and `x || d` on numbers
falls back to `d` when `x` is absent or zero.  Object maps keyed by node
id are modelled as association lists in insertion order; reading an array
cell out of range is modelled as a no-op update (the embedded functions
are only applied where the source guards the index or the claim fixes a
well-formed input).  Memoisation caches of the navigator are dropped: they
are observationally pure.
-/

/-- Position names by player count, from `getPositionNames` in
`poker-utils.ts`: a chain of fixed tables for 2..9 players, with
`[SB, BB]` as the fallback for any other count. -/
def getPositionNames (playerCount : Nat) : List String :=
  if playerCount = 2 then ["SB", "BB"]
  else if playerCount = 3 then ["BU", "SB", "BB"]
  else if playerCount = 4 then ["CO", "BU", "SB", "BB"]
  else if playerCount = 5 then ["HJ", "CO", "BU", "SB", "BB"]
  else if playerCount = 6 then ["MP", "HJ", "CO", "BU", "SB", "BB"]
  else if playerCount = 7 then ["UTG", "MP", "HJ", "CO", "BU", "SB", "BB"]
  else if playerCount = 8 then ["UTG", "UTG+1", "MP", "HJ", "CO", "BU", "SB", "BB"]
  else if playerCount = 9 then ["UTG", "UTG+1", "UTG+2", "MP", "HJ", "CO", "BU", "SB", "BB"]
  else ["SB", "BB"]

/-- Flat model of `SettingsData` as consumed by the state reconstructor:
the `blinds.sb`, `blinds.bb`, `blinds.ante` fields are flattened, stacks
are indexed by seat. -/
structure SettingsData where
  «stacks» : List Int
  sb : Int
  bb : Int
  ante : Int
  playerCount : Nat
deriving Repr, DecidableEq

/-- One entry of an action sequence (`{player, type, amount, street}`),
as replayed by the state reconstructor.  The amount is optional exactly as
in the source, which defends every read with `action.amount || 0`. -/
structure SeqAction where
  player : Nat
  type : String
  amount : Option Int
  street : Nat
deriving Repr, DecidableEq

/-- JavaScript `x || d` on an optionally-present number: the default is
taken when the value is absent, and also when it is 0 (which is falsy).
For `d = 0` this coincides with `Option.getD`. -/
def jsOr (x : Option Int) (d : Int) : Int :=
  match x with
  | some v => if v = 0 then d else v
  | none => d

/-- The combined call/raise/all-in amount the given player has wagered in
a sequence: the sum of `amount || 0` over the entries whose `player`
matches and whose type is C, R or A.  Fold-free restatement used by the
theorems; the embedded stack function below subtracts the amounts one by
one exactly as the source does. -/
def playerActionTotal (playerIndex : Nat) (sequence : List SeqAction) : Int :=
  ((sequence.filter (fun a =>
      a.player == playerIndex && (a.type == "C" || a.type == "R" || a.type == "A"))).map
    (fun a => a.amount.getD 0)).sum

/-- Embedding of `calculatePlayerStackAbsolute` from `poker-utils.ts`.
Starts from `initialStacks[playerIndex] || 4000000` (so a missing seat
silently falls back to the default stack of 4000000), subtracts the small
blind when the seat is the SB position, the big blind when it is the BB
position, the ante when the ante is positive, then subtracts every
call/raise/all-in amount of that player from the sequence, and clamps the
result at zero. -/
def calculatePlayerStackAbsolute (playerIndex : Nat) (settings : SettingsData)
    (actionSequence : List SeqAction) : Int :=
  let initialStacks := settings.stacks
  let currentStack := jsOr (initialStacks.get? playerIndex) 4000000
  let sb := settings.sb
  let bb := settings.bb
  let ante := settings.ante
  let positions := getPositionNames (if settings.playerCount = 0 then 2 else settings.playerCount)
  let playerPosition := positions.get? playerIndex
  let afterSb := if playerPosition = some "SB" then currentStack - sb else currentStack
  let afterBb := if playerPosition = some "BB" then afterSb - bb else afterSb
  let afterAnte := if ante > 0 then afterBb - ante else afterBb
  let afterActions := actionSequence.foldl
    (fun stack action =>
      if action.player == playerIndex
          && (action.type == "C" || action.type == "R" || action.type == "A") then
        stack - action.amount.getD 0
      else stack)
    afterAnte
  max 0 afterActions

/-- Embedding of `isActionAllIn` from `poker-utils.ts`: the wager is an
all-in exactly when it is at least the stack reconstructed from the
sequence before the action. -/
def isActionAllIn (actionAmount : Int) (playerIndex : Nat) (settings : SettingsData)
    (actionSequence : List SeqAction) : Bool :=
  let playerStackBefore := calculatePlayerStackAbsolute playerIndex settings actionSequence
  playerStackBefore ≤ actionAmount

/-- Result record of `calculatePotAndContributions`. -/
structure PotContrib where
  totalPot : Int
  playerCurrentStreetContributions : List Int
  playerTotalContributions : List Int
deriving Repr, DecidableEq

/-- Add `v` to cell `i` of an Int array, as the source `arr[i] += v`
does for an in-range index; out of range it is a no-op (the source only
performs it under an index guard or on indices produced by `indexOf` over
a list whose length matches the array). -/
def listAdd (l : List Int) (i : Nat) (v : Int) : List Int :=
  match l.get? i with
  | some x => l.set i (x + v)
  | none => l

/-- Embedding of `calculatePotAndContributions` from the
`PokerTablePreview` component.  The pot is seeded with antes (when
positive) plus both blinds; the total-contribution array is seeded at the
SB and BB seats, and the current-street array is seeded there too when
the current street is 0.  Each non-fold, non-check action with a positive
amount then adds to the pot and to the total of its player; when its
street equals the current street, a call adds to the current-street cell
while a raise overwrites it. -/
def calculatePotAndContributions (settings : SettingsData)
    (sequence : List SeqAction) (currentStreet : Nat) : PotContrib :=
  let playerCount := settings.playerCount
  let curr0 : List Int := List.replicate playerCount 0
  let tot0 : List Int := List.replicate playerCount 0
  let positions := getPositionNames playerCount
  let ante := settings.ante
  let pot0 : Int := if ante > 0 then ante * playerCount else 0
  let sb := settings.sb
  let bb := settings.bb
  let pot1 := pot0 + sb + bb
  let sbIndex := positions.findIdx? (fun p => p == "SB")
  let bbIndex := positions.findIdx? (fun p => p == "BB")
  let seededSb :=
    match sbIndex with
    | some i =>
        (listAdd tot0 i sb, if currentStreet = 0 then curr0.set i sb else curr0)
    | none => (tot0, curr0)
  let seededBb :=
    match bbIndex with
    | some i =>
        (listAdd seededSb.1 i bb, if currentStreet = 0 then seededSb.2.set i bb else seededSb.2)
    | none => seededSb
  let folded := sequence.foldl
    (fun (st : Int × List Int × List Int) action =>
      let (pot, curr, tot) := st
      let actionAmount := action.amount.getD 0
      if action.type != "F" && action.type != "X" && actionAmount > 0 then
        let pot' := pot + actionAmount
        if action.player < tot.length then
          let tot' := listAdd tot action.player actionAmount
          let curr' :=
            if action.street = currentStreet then
              if action.type == "C" then listAdd curr action.player actionAmount
              else if action.type == "R" then curr.set action.player actionAmount
              else curr
            else curr
          (pot', curr', tot')
        else (pot', curr, tot)
      else (pot, curr, tot))
    (pot1, seededBb.2, seededBb.1)
  { totalPot := folded.1
    playerCurrentStreetContributions := folded.2.1
    playerTotalContributions := folded.2.2 }

/-- Game settings shared by the concrete test properties of the spec:
two players, stacks 200 and 200, small blind 1, big blind 2, no ante. -/
def specSettings : SettingsData :=
  { «stacks» := [200, 200], sb := 1, bb := 2, ante := 0, playerCount := 2 }

/-- Action sequence of the replace-vs-add test property: player 0 raises
to 6, player 1 calls 6, player 0 raises to 20, all on street 0. -/
def specSequenceC1 : List SeqAction :=
  [ { player := 0, type := "R", amount := some 6, street := 0 },
    { player := 1, type := "C", amount := some 6, street := 0 },
    { player := 0, type := "R", amount := some 20, street := 0 } ]

/-- Compact action record from `optimized-tree.ts`: `t` is the action
type (F, C, R, X, A), `amt` the optional amount, `n` the optional target
node id. -/
structure CompactAction where
  t : String
  amt : Option Nat
  n : Option String
deriving Repr, DecidableEq

/-- Compact node record from `optimized-tree.ts`: `p` is the optional
parent id, `pl` the acting player, `s` the street, `a` the action list,
`d` the depth and `f` the bit flags (bit 0 terminal, bit 1 hand data). -/
structure CompactTreeNode where
  id : String
  p : Option String
  pl : Nat
  s : Nat
  a : List CompactAction
  d : Nat
  f : Nat
deriving Repr, DecidableEq

/-- The node index of the navigator (`nodeCache`): node records keyed by
id, in insertion order. -/
abbrev NodeMap := List (String × CompactTreeNode)

/-- JavaScript truthiness of an optional string: false for an absent
value and for the empty string. -/
def strTruthy (x : Option String) : Bool :=
  match x with
  | some s => s != ""
  | none => false

/-- Terminal test from `CompactTreeUtils.isTerminal` in
`optimized-tree.ts`: bit 0 of the flags field. -/
def isTerminal (node : CompactTreeNode) : Bool :=
  node.f % 2 = 1

/-- Amount abbreviation of the navigator (`formatAmount`): at or above a
million, the amount in millions to one decimal with suffix M; at or above
a thousand, the amount in whole thousands with suffix K; otherwise the
literal integer.  The source rounds with `toFixed`, modelled here as exact
half-up decimal rounding of the rational amount; the artefacts of binary
doubles on inputs that sit just below a decimal tie are below the
resolution of this model. -/
def formatAmount (amount : Nat) : String :=
  if 1000000 ≤ amount then
    let tenths := (amount + 50000) / 100000
    toString (tenths / 10) ++ "." ++ toString (tenths % 10) ++ "M"
  else if 1000 ≤ amount then
    toString ((amount + 500) / 1000) ++ "K"
  else toString amount

/-- Action label formatting of the navigator (`formatActionLabel`): the
switch has cases for F, C, X and R only; any other type, including the
all-in type A, falls through to the default branch, which returns the
type string itself. -/
def formatActionLabel (type : String) (amount : Nat) : String :=
  if type = "F" then "Fold"
  else if type = "C" then "Call"
  else if type = "X" then "Check"
  else if type = "R" then (if amount > 0 then "Raise " ++ formatAmount amount else "Raise")
  else type

/-- Navigation action record returned by `getAvailableActions`. -/
structure NavigationAction where
  label : String
  targetNode : String
  type : String
  amount : Nat
deriving Repr, DecidableEq

/-- Embedding of `getAvailableActions`: the actions of the node that have
a (truthy) target, in declaration order, mapped to navigation records;
the empty list when the node id is not indexed. -/
def getAvailableActions (nodes : NodeMap) (nodeId : String) : List NavigationAction :=
  match List.lookup nodeId nodes with
  | none => []
  | some node =>
      (node.a.filter (fun action => strTruthy action.n)).map
        (fun action =>
          { label := formatActionLabel action.t (action.amt.getD 0)
            targetNode := action.n.getD ""
            type := action.t
            amount := action.amt.getD 0 })

/-- Embedding of `navigateByPath`: starting from `startNodeId`, consume
the requested action types in order; at each step the current node must
be indexed and must have an action of the requested type with a truthy
target, which becomes the new current id.  An empty request list returns
the start id unchanged, without looking the start node up. -/
def navigateByPath (nodes : NodeMap) (startNodeId : String) :
    List String → Option String
  | [] => some startNodeId
  | actionType :: rest =>
      match List.lookup startNodeId nodes with
      | none => none
      | some node =>
          match node.a.find? (fun a => a.t == actionType && strTruthy a.n) with
          | none => none
          | some action =>
              match action.n with
              | none => none
              | some target => navigateByPath nodes target rest

/-- Replay procedure of the round-trip property, following the words of
the spec: repeatedly look up the available actions of the current node
and follow the first one whose type matches the next requested type. -/
def replayByAvailableActions (nodes : NodeMap) (startNodeId : String) :
    List String → Option String
  | [] => some startNodeId
  | actionType :: rest =>
      match (getAvailableActions nodes startNodeId).find? (fun na => na.type == actionType) with
      | none => none
      | some na => replayByAvailableActions nodes na.targetNode rest

/-- Target ids of the actions of a node that have a truthy target: the
children the terminal-node traversal descends into. -/
def childTargets (node : CompactTreeNode) : List String :=
  node.a.filterMap (fun action =>
    match action.n with
    | some n => if n = "" then none else some n
    | none => none)

/-- Number of indexed node ids not yet in the visited list: the measure
that makes the terminal-node traversal terminate even on a cyclic action
graph. -/
def countNotVisited (nodes : NodeMap) (visited : List String) : Nat :=
  ((nodes.map Prod.fst).filter (fun k => decide (k ∉ visited))).length

theorem length_filter_le_of_imp {α : Type} (l : List α) (p q : α → Bool)
    (h : ∀ x, q x = true → p x = true) :
    (l.filter q).length ≤ (l.filter p).length := by
  induction l with
  | nil => simp
  | cons b t ih =>
      by_cases hq : q b = true
      · simp [List.filter_cons, hq, h b hq]; omega
      · have hq' : q b = false := by revert hq; cases q b <;> simp
        by_cases hp : p b = true
        · simp [List.filter_cons, hq', hp]; omega
        · have hp' : p b = false := by revert hp; cases p b <;> simp
          simp [List.filter_cons, hq', hp']; omega

theorem length_filter_lt_of_witness {α : Type} (l : List α) (p q : α → Bool)
    (h : ∀ x, q x = true → p x = true) (a : α) (ha : a ∈ l)
    (hpa : p a = true) (hqa : q a = false) :
    (l.filter q).length < (l.filter p).length := by
  induction l with
  | nil => simp at ha
  | cons b t ih =>
      rcases List.mem_cons.mp ha with rfl | hat
      · have := length_filter_le_of_imp t p q h
        simp [List.filter_cons, hpa, hqa]; omega
      · by_cases hq : q b = true
        · have h3 := ih hat
          simp [List.filter_cons, hq, h b hq]; omega
        · have hq' : q b = false := by revert hq; cases q b <;> simp
          by_cases hp : p b = true
          · have h3 := ih hat
            simp [List.filter_cons, hq', hp]; omega
          · have hp' : p b = false := by revert hp; cases p b <;> simp
            have h3 := ih hat
            simpa [List.filter_cons, hq', hp'] using h3

theorem countNotVisited_cons_le (nodes : NodeMap) (visited : List String) (x : String) :
    countNotVisited nodes (x :: visited) ≤ countNotVisited nodes visited := by
  apply length_filter_le_of_imp
  intro k hk
  simp only [decide_eq_true_eq] at hk ⊢
  intro hmem
  exact hk (List.mem_cons_of_mem x hmem)

theorem mem_keys_of_lookup_eq_some {l : NodeMap} {a : String} {b : CompactTreeNode}
    (h : List.lookup a l = some b) : a ∈ l.map Prod.fst := by
  induction l with
  | nil => simp [List.lookup] at h
  | cons e t ih =>
      rw [List.lookup] at h
      by_cases he : a == e.1
      · simp [show (a == e.1) = true from he] at h
        simp [List.mem_map]
        exact Or.inl (eq_of_beq he)
      · have he' : (a == e.1) = false := by revert he; cases a == e.1 <;> simp
        rw [he'] at h
        simp only [List.map_cons, List.mem_cons]
        exact Or.inr (ih h)

theorem countNotVisited_cons_lt (nodes : NodeMap) (visited : List String) (x : String)
    (hmem : x ∈ nodes.map Prod.fst) (hnv : x ∉ visited) :
    countNotVisited nodes (x :: visited) < countNotVisited nodes visited := by
  apply length_filter_lt_of_witness _ _ _ _ x hmem
  · simpa using hnv
  · simp
  · intro k hk
    simp only [decide_eq_true_eq] at hk ⊢
    intro hmemk
    exact hk (List.mem_cons_of_mem x hmemk)

/-- Worklist form of the depth-first traversal inside `getTerminalNodes`:
the recursive `traverse` of the source pops the next pending node id,
skips it if already visited, marks it visited, records it if it is
terminal (stopping the descent there), and otherwise pushes its action
targets, exactly as the recursive calls of the source would process them
next.  The visited list makes the recursion well founded even when the
action graph has a cycle: every expansion step removes an indexed,
unvisited id from the measure. -/
def traverseGo (nodes : NodeMap) :
    List String → List String → List String → List String × List String
  | visited, terminals, [] => (visited, terminals)
  | visited, terminals, nodeId :: rest =>
      if hv : nodeId ∈ visited then
        traverseGo nodes visited terminals rest
      else
        match hl : List.lookup nodeId nodes with
        | none => traverseGo nodes (nodeId :: visited) terminals rest
        | some node =>
            if isTerminal node then
              traverseGo nodes (nodeId :: visited) (terminals ++ [nodeId]) rest
            else
              traverseGo nodes (nodeId :: visited) terminals (childTargets node ++ rest)
termination_by visited terminals worklist => (countNotVisited nodes visited, worklist.length)
decreasing_by
  · exact Prod.Lex.right _ (Nat.lt_succ_self _)
  · rcases Nat.lt_or_eq_of_le (countNotVisited_cons_le nodes visited nodeId) with h | h
    · exact Prod.Lex.left _ _ h
    · rw [h]; exact Prod.Lex.right _ (Nat.lt_succ_self _)
  · exact Prod.Lex.left _ _
      (countNotVisited_cons_lt nodes visited nodeId (mem_keys_of_lookup_eq_some hl) hv)
  · exact Prod.Lex.left _ _
      (countNotVisited_cons_lt nodes visited nodeId (mem_keys_of_lookup_eq_some hl) hv)

theorem traverseGo_nil (nodes : NodeMap) (visited terminals : List String) :
    traverseGo nodes visited terminals [] = (visited, terminals) := by
  rw [traverseGo]

theorem traverseGo_cons_visited (nodes : NodeMap) (visited terminals rest : List String)
    (nodeId : String) (hv : nodeId ∈ visited) :
    traverseGo nodes visited terminals (nodeId :: rest) =
      traverseGo nodes visited terminals rest := by
  rw [traverseGo]; simp only [dif_pos hv]

theorem traverseGo_cons_none (nodes : NodeMap) (visited terminals rest : List String)
    (nodeId : String) (hv : nodeId ∉ visited) (hl : List.lookup nodeId nodes = none) :
    traverseGo nodes visited terminals (nodeId :: rest) =
      traverseGo nodes (nodeId :: visited) terminals rest := by
  rw [traverseGo]; simp only [dif_neg hv]
  split
  · rfl
  · rename_i node h; rw [hl] at h; cases h

theorem traverseGo_cons_term (nodes : NodeMap) (visited terminals rest : List String)
    (nodeId : String) (node : CompactTreeNode) (hv : nodeId ∉ visited)
    (hl : List.lookup nodeId nodes = some node) (ht : isTerminal node = true) :
    traverseGo nodes visited terminals (nodeId :: rest) =
      traverseGo nodes (nodeId :: visited) (terminals ++ [nodeId]) rest := by
  rw [traverseGo]; simp only [dif_neg hv]
  split
  · rename_i h; rw [hl] at h; cases h
  · rename_i node' h; rw [hl] at h; injection h with h; subst h
    simp only [ht, if_true]

theorem traverseGo_cons_nonterm (nodes : NodeMap) (visited terminals rest : List String)
    (nodeId : String) (node : CompactTreeNode) (hv : nodeId ∉ visited)
    (hl : List.lookup nodeId nodes = some node) (ht : isTerminal node = false) :
    traverseGo nodes visited terminals (nodeId :: rest) =
      traverseGo nodes (nodeId :: visited) terminals (childTargets node ++ rest) := by
  rw [traverseGo]; simp only [dif_neg hv]
  split
  · rename_i h; rw [hl] at h; cases h
  · rename_i node' h; rw [hl] at h; injection h with h; subst h
    simp only [ht, Bool.false_eq_true, if_false]

/-- Embedding of `getTerminalNodes`: the terminal ids collected by the
guarded depth-first traversal started at the given id. -/
def getTerminalNodes (nodes : NodeMap) (startNodeId : String) : List String :=
  (traverseGo nodes [] [] [startNodeId]).2

/-- Breadcrumb record from `optimized-tree.ts`. -/
structure BreadcrumbItem where
  nodeId : String
  label : String
  player : Nat
  action : String
deriving Repr, DecidableEq

/-- Synthetic root entry the breadcrumb walk prepends when the walk has
reached a node with no (truthy) parent. -/
def rootCrumb (node : CompactTreeNode) : BreadcrumbItem :=
  { nodeId := node.id, label := "Start", player := node.pl, action := "ROOT" }

/-- One parent-chain step of `getBreadcrumbs`: at `cur`, while the parent
id is truthy and indexed, look in the parent for the action whose target
equals the id of `cur`, prepend the corresponding crumb when found, and
continue from the parent.  The loop of the source carries no visited set,
so a cyclic parent chain would make it spin forever; the walk is bounded
here by a fuel argument, and the breadcrumb theorems only concern inputs
on which the source loop stops (fuel is set to the node count, enough for
every acyclic parent chain). -/
def breadcrumbWalk (nodes : NodeMap) :
    Nat → CompactTreeNode → List BreadcrumbItem → CompactTreeNode × List BreadcrumbItem
  | 0, cur, acc => (cur, acc)
  | fuel + 1, cur, acc =>
      match cur.p with
      | none => (cur, acc)
      | some parentId =>
          if parentId = "" then (cur, acc)
          else
            match List.lookup parentId nodes with
            | none => (cur, acc)
            | some parentNode =>
                let acc' :=
                  match parentNode.a.find? (fun action => action.n == some cur.id) with
                  | some actionToChild =>
                      { nodeId := parentId
                        label := formatActionLabel actionToChild.t (actionToChild.amt.getD 0)
                        player := parentNode.pl
                        action := actionToChild.t } :: acc
                  | none => acc
                breadcrumbWalk nodes fuel parentNode acc'

/-- Embedding of `getBreadcrumbs` (without its memoisation cache): walk
the parent chain collecting crumbs, then prepend the synthetic Start
entry when the walk ended at a parentless node; an unindexed id yields
the empty trail. -/
def getBreadcrumbs (nodes : NodeMap) (nodeId : String) : List BreadcrumbItem :=
  match List.lookup nodeId nodes with
  | none => []
  | some start =>
      let walked := breadcrumbWalk nodes nodes.length start []
      if strTruthy walked.1.p then walked.2 else rootCrumb walked.1 :: walked.2

/-- Tree record consumed by validation: the node map and the declared
root id (the metadata record of the source is not read by any embedded
operation). -/
structure OptimizedTree where
  nodes : NodeMap
  root : String

/-- Error message pushed by validation when the declared root id is not a
key of the node map. -/
def rootErrMsg (root : String) : String :=
  "Root node " ++ root ++ " not found"

/-- Error message pushed by validation for a dangling parent reference. -/
def parentErrMsg (nodeId parentId : String) : String :=
  "Node " ++ nodeId ++ " references non-existent parent " ++ parentId

/-- Error message pushed by validation for a dangling action target,
naming the offending node and the index of the action. -/
def actionErrMsg (nodeId : String) (index : Nat) (target : String) : String :=
  "Node " ++ nodeId ++ " action " ++ toString index ++ " references non-existent node " ++ target

/-- Result record of `validateCompactTree`. -/
structure ValidationResult where
  isValid : Bool
  errors : List String
deriving Repr, DecidableEq

/-- Embedding of `CompactTreeUtils.validateCompactTree`: first the root
check, then for every node in map order a dangling-parent check followed
by a dangling-target check per action, every failure appending its
message; the tree is valid exactly when no message accumulated. -/
def validateCompactTree (tree : OptimizedTree) : ValidationResult :=
  let nodeIds := tree.nodes.map Prod.fst
  let errors0 := if tree.root ∈ nodeIds then [] else [rootErrMsg tree.root]
  let errors := tree.nodes.foldl
    (fun errs entry =>
      let nodeId := entry.1
      let node := entry.2
      let errs1 :=
        match node.p with
        | some parentId =>
            if parentId ≠ "" ∧ parentId ∉ nodeIds then errs ++ [parentErrMsg nodeId parentId]
            else errs
        | none => errs
      node.a.enum.foldl
        (fun es ia =>
          match ia.2.n with
          | some target =>
              if target ≠ "" ∧ target ∉ nodeIds then es ++ [actionErrMsg nodeId ia.1 target]
              else es
          | none => es)
        errs1)
    errors0
  { isValid := errors.length = 0, errors := errors }

/-- Violation messages of a tree, stated the way the spec enumerates
them: the root message when the root id is not a key, then, for every
node in map order, the message naming that node for a dangling parent
reference, followed by one message per action index whose target
dangles. -/
def specErrors (tree : OptimizedTree) : List String :=
  let nodeIds := tree.nodes.map Prod.fst
  (if tree.root ∈ nodeIds then [] else [rootErrMsg tree.root]) ++
    tree.nodes.flatMap (fun entry =>
      (match entry.2.p with
       | some parentId =>
           if parentId ≠ "" ∧ parentId ∉ nodeIds then [parentErrMsg entry.1 parentId] else []
       | none => []) ++
      entry.2.a.enum.flatMap (fun ia =>
        match ia.2.n with
        | some target =>
            if target ≠ "" ∧ target ∉ nodeIds then [actionErrMsg entry.1 ia.1 target] else []
        | none => []))

/-- A tree has no violations when its root id is a key of the node map,
every truthy parent reference resolves, and every truthy action target
resolves. -/
def NoViolations (tree : OptimizedTree) : Prop :=
  let nodeIds := tree.nodes.map Prod.fst
  tree.root ∈ nodeIds ∧
  (∀ entry ∈ tree.nodes, ∀ parentId, entry.2.p = some parentId → parentId ≠ "" →
    parentId ∈ nodeIds) ∧
  (∀ entry ∈ tree.nodes, ∀ ia ∈ entry.2.a.enum, ∀ target, ia.2.n = some target →
    target ≠ "" → target ∈ nodeIds)

theorem foldl_sub_filter (p : SeqAction → Bool) (sequence : List SeqAction) (s0 : Int) :
    sequence.foldl (fun stack a => if p a then stack - a.amount.getD 0 else stack) s0 =
      s0 - ((sequence.filter p).map (fun a => a.amount.getD 0)).sum := by
  induction sequence generalizing s0 with
  | nil => simp
  | cons a t ih =>
      by_cases hp : p a = true
      · simp only [List.foldl_cons, hp, if_true, List.filter_cons_of_pos hp, List.map_cons,
          List.sum_cons, ih]
        ring
      · have hp' : p a = false := by revert hp; cases p a <;> simp
        simp only [List.foldl_cons, hp', Bool.false_eq_true, if_false,
          List.filter_cons_of_neg, ih]
        rw [List.filter_cons_of_neg]
        simp [hp']

/-- C4: with stacks 200/200, blinds 1/2, no ante and the empty sequence,
the small-blind seat reconstructs to 199 and the big-blind seat to 198;
in general the stack starts from the seat entry of the stacks array (with
the 4000000 fallback of the source), loses the small blind at the SB
seat, the big blind at the BB seat, the ante at every seat when the ante
is positive, and then the sum of the call/raise/all-in amounts of that
player, clamped at zero. -/
theorem claim_C4 :
    calculatePlayerStackAbsolute 0 specSettings [] = 199 ∧
    calculatePlayerStackAbsolute 1 specSettings [] = 198 ∧
    ∀ (settings : SettingsData) (playerIndex : Nat) (sequence : List SeqAction),
      calculatePlayerStackAbsolute playerIndex settings sequence =
        max 0 (jsOr (settings.stacks.get? playerIndex) 4000000
          - (if (getPositionNames (if settings.playerCount = 0 then 2
                else settings.playerCount)).get? playerIndex = some "SB"
             then settings.sb else 0)
          - (if (getPositionNames (if settings.playerCount = 0 then 2
                else settings.playerCount)).get? playerIndex = some "BB"
             then settings.bb else 0)
          - (if settings.ante > 0 then settings.ante else 0)
          - playerActionTotal playerIndex sequence) := by
  refine ⟨by decide, by decide, ?_⟩
  intro settings playerIndex sequence
  simp only [calculatePlayerStackAbsolute, playerActionTotal, foldl_sub_filter]
  split_ifs <;> (congr 1 <;> ring)

/-- C2 counterexample: player index 5 is outside the two-player range of
the spec settings, yet the stack reconstruction silently returns the
default stack value 4000000 instead of signalling. -/
theorem claim_C2_counterexample :
    specSettings.playerCount ≤ 5 ∧ calculatePlayerStackAbsolute 5 specSettings [] = 4000000 := by
  exact ⟨by decide, by decide⟩

/-- C2 as amended: for a player index beyond both the stacks array and
the position table the reconstruction does not signal; it silently
substitutes the default stack 4000000 and proceeds with the ordinary
computation (ante when positive, then the matching action amounts,
clamped at zero). -/
theorem claim_C2 (settings : SettingsData) (sequence : List SeqAction) (playerIndex : Nat)
    (hs : settings.stacks.get? playerIndex = none)
    (hp : (getPositionNames (if settings.playerCount = 0 then 2
        else settings.playerCount)).length ≤ playerIndex) :
    calculatePlayerStackAbsolute playerIndex settings sequence =
      max 0 ((4000000 : Int) - (if settings.ante > 0 then settings.ante else 0)
        - playerActionTotal playerIndex sequence) := by
  have hpos : (getPositionNames (if settings.playerCount = 0 then 2
      else settings.playerCount)).get? playerIndex = none :=
    List.get?_eq_none.mpr hp
  simp only [calculatePlayerStackAbsolute, playerActionTotal, foldl_sub_filter, hs, hpos, jsOr]
  rw [if_neg (by simp : ¬((none : Option String) = some "SB")),
    if_neg (by simp : ¬((none : Option String) = some "BB"))]
  split_ifs <;> (congr 1 <;> ring)

theorem claim_C2_witness :
    specSettings.stacks.get? 5 = none ∧
    (getPositionNames (if specSettings.playerCount = 0 then 2
        else specSettings.playerCount)).length ≤ 5 ∧
    calculatePlayerStackAbsolute 5 specSettings [] =
      max 0 ((4000000 : Int) - (if specSettings.ante > 0 then specSettings.ante else 0)
        - playerActionTotal 5 []) :=
  ⟨by decide, by decide, claim_C2 specSettings [] 5 (by decide) (by decide)⟩

/-- C1 counterexample: on the replace-vs-add sequence the current-street
contribution of player 1 is not 6 — the big blind of 2 is seeded into the
cell and the call then adds 6, giving 8. -/
theorem claim_C1_counterexample :
    ¬(((calculatePotAndContributions specSettings specSequenceC1 0).playerCurrentStreetContributions.get? 0 = some 20) ∧
      ((calculatePotAndContributions specSettings specSequenceC1 0).playerCurrentStreetContributions.get? 1 = some 6)) := by
  decide

/-- C1 as amended: on the replace-vs-add sequence the second raise of
player 0 replaces the first, giving a current-street contribution of 20,
while player 1 holds 8: the seeded big blind 2 plus the 6 the call adds
on top of it. -/
theorem claim_C1 :
    ((calculatePotAndContributions specSettings specSequenceC1 0).playerCurrentStreetContributions.get? 0 = some 20) ∧
    ((calculatePotAndContributions specSettings specSequenceC1 0).playerCurrentStreetContributions.get? 1 = some 8) := by
  exact ⟨by decide, by decide⟩

/-- C5: with the player index in range, the all-in test returns true
exactly when the amount reaches the stack reconstructed from the prior
sequence; with the spec settings and no prior actions, a wager of 10 by
player 0 is not an all-in since 10 is below the reconstructed 199. -/
theorem claim_C5 (actionAmount : Int) (playerIndex : Nat) (settings : SettingsData)
    (sequence : List SeqAction) (h : playerIndex < settings.playerCount) :
    (isActionAllIn actionAmount playerIndex settings sequence = true ↔
        calculatePlayerStackAbsolute playerIndex settings sequence ≤ actionAmount) ∧
    isActionAllIn 10 0 specSettings [] = false := by
  refine ⟨?_, by decide⟩
  simp [isActionAllIn]

theorem claim_C5_witness :
    (0 < specSettings.playerCount) ∧
    ((isActionAllIn 10 0 specSettings [] = true ↔
        calculatePlayerStackAbsolute 0 specSettings [] ≤ 10) ∧
      isActionAllIn 10 0 specSettings [] = false) :=
  ⟨by decide, claim_C5 10 0 specSettings [] (by decide)⟩

/-- C3 counterexample: the navigator formats the all-in type A through
the default branch of its switch, producing the literal type string, not
the label All-in. -/
theorem claim_C3_counterexample :
    formatActionLabel "A" 500 = "A" ∧ formatActionLabel "A" 500 ≠ "All-in" := by
  exact ⟨by decide, by decide⟩

/-- C3 as amended: the navigator maps fold, call and check to their
labels, maps raise to the label Raise with the abbreviated amount
appended when the amount is positive, and maps the all-in type A — like
every type without a case of its own — to the literal type string; the
abbreviation renders amounts of at least a million in one-decimal
millions with suffix M, amounts of at least a thousand in whole thousands
with suffix K, and smaller amounts as the literal integer. -/
theorem claim_C3 (amount : Nat) :
    formatActionLabel "F" amount = "Fold" ∧
    formatActionLabel "C" amount = "Call" ∧
    formatActionLabel "X" amount = "Check" ∧
    formatActionLabel "R" amount =
      (if amount > 0 then "Raise " ++ formatAmount amount else "Raise") ∧
    formatActionLabel "A" amount = "A" ∧
    (1000000 ≤ amount → ∃ millions, formatAmount amount = millions ++ "M") ∧
    (1000 ≤ amount → amount < 1000000 → ∃ thousands, formatAmount amount = thousands ++ "K") ∧
    (amount < 1000 → formatAmount amount = toString amount) ∧
    formatAmount 1500000 = "1.5M" ∧
    formatAmount 20000 = "20K" ∧
    formatAmount 999 = "999" := by
  refine ⟨by simp [formatActionLabel], by simp [formatActionLabel], by simp [formatActionLabel],
    by simp [formatActionLabel], by simp [formatActionLabel], ?_, ?_, ?_, by decide, by decide,
    by decide⟩
  · intro h
    refine ⟨toString ((amount + 50000) / 100000 / 10) ++ "." ++
      toString ((amount + 50000) / 100000 % 10), ?_⟩
    simp [formatAmount, h, String.append_assoc]
  · intro h1 h2
    refine ⟨toString ((amount + 500) / 1000), ?_⟩
    have : ¬ 1000000 ≤ amount := by omega
    simp [formatAmount, this, h1]
  · intro h
    have h1 : ¬ 1000000 ≤ amount := by omega
    have h2 : ¬ 1000 ≤ amount := by omega
    simp [formatAmount, h1, h2]

theorem claim_C3_witness :
    (1000000 ≤ 1500000 ∧ ∃ millions, formatAmount 1500000 = millions ++ "M") ∧
    (1000 ≤ 20000 ∧ 20000 < 1000000 ∧ ∃ thousands, formatAmount 20000 = thousands ++ "K") ∧
    (999 < 1000 ∧ formatAmount 999 = toString 999) ∧
    formatActionLabel "A" 7 = "A" :=
  ⟨⟨by decide, (claim_C3 1500000).2.2.2.2.2.1 (by decide)⟩,
    ⟨by decide, by decide, (claim_C3 20000).2.2.2.2.2.2.1 (by decide) (by decide)⟩,
    ⟨by decide, (claim_C3 999).2.2.2.2.2.2.2.1 (by decide)⟩,
    (claim_C3 7).2.2.2.2.1⟩

/-- C10: navigating by an empty action-type list returns the start id
itself for every start id, including ids absent from the index — the
start node is first looked up only when an action type is to be
consumed, in which case an absent start yields the NotFound result. -/
theorem claim_C10 :
    (∀ (nodes : NodeMap) (startNodeId : String),
        navigateByPath nodes startNodeId [] = some startNodeId) ∧
    (∀ (nodes : NodeMap) (startNodeId actionType : String) (rest : List String),
        List.lookup startNodeId nodes = none →
        navigateByPath nodes startNodeId (actionType :: rest) = none) := by
  constructor
  · intro nodes startNodeId
    rfl
  · intro nodes startNodeId actionType rest h
    simp [navigateByPath, h]

theorem claim_C10_witness :
    navigateByPath [] "ghost" [] = some "ghost" ∧ navigateByPath [] "ghost" ["R"] = none :=
  ⟨claim_C10.1 [] "ghost", claim_C10.2 [] "ghost" "R" [] rfl⟩

theorem breadcrumbWalk_stop (nodes : NodeMap) (fuel : Nat) (cur : CompactTreeNode)
    (acc : List BreadcrumbItem) (h : strTruthy cur.p = false) :
    breadcrumbWalk nodes fuel cur acc = (cur, acc) := by
  cases fuel with
  | zero => rfl
  | succ n =>
      cases hp : cur.p with
      | none => simp [breadcrumbWalk, hp]
      | some parentId =>
          have he : parentId = "" := by
            simp [strTruthy, hp] at h
            exact h
          simp [breadcrumbWalk, hp, he]

/-- C9: the breadcrumb trail of a parentless indexed node — the root of
every valid tree — is exactly the one synthetic Start entry, and the
breadcrumb trail of an id absent from the index is empty. -/
theorem claim_C9 :
    (∀ (nodes : NodeMap) (rootId : String) (rootNode : CompactTreeNode),
        List.lookup rootId nodes = some rootNode →
        strTruthy rootNode.p = false →
        getBreadcrumbs nodes rootId = [rootCrumb rootNode]) ∧
    (∀ (nodes : NodeMap) (nodeId : String),
        List.lookup nodeId nodes = none →
        getBreadcrumbs nodes nodeId = []) := by
  constructor
  · intro nodes rootId rootNode hl hp
    simp [getBreadcrumbs, hl, breadcrumbWalk_stop nodes nodes.length rootNode [] hp, hp]
  · intro nodes nodeId hl
    simp [getBreadcrumbs, hl]

theorem claim_C9_witness :
    (List.lookup "r" [("r", (⟨"r", none, 0, 0, [], 0, 1⟩ : CompactTreeNode))] =
        some (⟨"r", none, 0, 0, [], 0, 1⟩ : CompactTreeNode)) ∧
    strTruthy (none : Option String) = false ∧
    getBreadcrumbs [("r", (⟨"r", none, 0, 0, [], 0, 1⟩ : CompactTreeNode))] "r" =
      [rootCrumb (⟨"r", none, 0, 0, [], 0, 1⟩ : CompactTreeNode)] ∧
    getBreadcrumbs [("r", (⟨"r", none, 0, 0, [], 0, 1⟩ : CompactTreeNode))] "ghost" = [] :=
  ⟨by decide, by decide,
    claim_C9.1 [("r", ⟨"r", none, 0, 0, [], 0, 1⟩)] "r" ⟨"r", none, 0, 0, [], 0, 1⟩
      (by decide) (by decide),
    claim_C9.2 [("r", ⟨"r", none, 0, 0, [], 0, 1⟩)] "ghost" (by decide)⟩

theorem find?_filter_comm {α : Type} (l : List α) (p q : α → Bool) :
    (l.filter p).find? q = l.find? (fun a => p a && q a) := by
  induction l with
  | nil => rfl
  | cons a t ih =>
      cases hp : p a with
      | true =>
          cases hq : q a with
          | true => simp [List.filter_cons, List.find?_cons, hp, hq]
          | false => simp [List.filter_cons, List.find?_cons, hp, hq, ih]
      | false => simp [List.filter_cons, List.find?_cons, hp, ih]

/-- C6: whenever navigate-by-path reaches a node, replaying the same
action types from the same start through the available-action lists —
following at each step the first available action whose type matches —
reaches the same node id. -/
theorem claim_C6 (nodes : NodeMap) (startNodeId : String) (actionTypes : List String)
    (result : String)
    (h : navigateByPath nodes startNodeId actionTypes = some result) :
    replayByAvailableActions nodes startNodeId actionTypes = some result := by
  induction actionTypes generalizing startNodeId with
  | nil =>
      simp only [navigateByPath] at h
      injection h with h
      rw [h]
      rfl
  | cons actionType rest ih =>
      rw [navigateByPath] at h
      cases hl : List.lookup startNodeId nodes with
      | none => simp [hl] at h
      | some node =>
          simp only [hl] at h
          cases hf : node.a.find? (fun a => a.t == actionType && strTruthy a.n) with
          | none => simp [hf] at h
          | some action =>
              simp only [hf] at h
              cases hn : action.n with
              | none => simp [hn] at h
              | some target =>
                  simp only [hn] at h
                  rw [replayByAvailableActions]
                  have hfind : (getAvailableActions nodes startNodeId).find?
                      (fun na => na.type == actionType) =
                      some { label := formatActionLabel action.t (action.amt.getD 0),
                             targetNode := action.n.getD "",
                             type := action.t,
                             amount := action.amt.getD 0 } := by
                    rw [getAvailableActions, hl, List.find?_map]
                    rw [show ((fun (na : NavigationAction) => na.type == actionType) ∘
                        (fun action =>
                          ({ label := formatActionLabel action.t (action.amt.getD 0),
                             targetNode := action.n.getD "",
                             type := action.t,
                             amount := action.amt.getD 0 } : NavigationAction))) =
                        (fun (a : CompactAction) => a.t == actionType) from rfl]
                    rw [find?_filter_comm]
                    rw [show (fun (a : CompactAction) => strTruthy a.n && (a.t == actionType)) =
                        (fun (a : CompactAction) => a.t == actionType && strTruthy a.n) from by
                      funext a; exact Bool.and_comm _ _]
                    rw [hf]
                    rfl
                  rw [hfind]
                  simp only [hn, Option.getD_some]
                  exact ih target h

theorem claim_C6_witness :
    navigateByPath
        [("r", (⟨"r", none, 0, 0, [⟨"R", some 6, some "x"⟩], 0, 0⟩ : CompactTreeNode)),
         ("x", (⟨"x", some "r", 1, 0, [], 1, 1⟩ : CompactTreeNode))] "r" ["R"] = some "x" ∧
    replayByAvailableActions
        [("r", (⟨"r", none, 0, 0, [⟨"R", some 6, some "x"⟩], 0, 0⟩ : CompactTreeNode)),
         ("x", (⟨"x", some "r", 1, 0, [], 1, 1⟩ : CompactTreeNode))] "r" ["R"] = some "x" :=
  ⟨by decide,
    claim_C6
      [("r", ⟨"r", none, 0, 0, [⟨"R", some 6, some "x"⟩], 0, 0⟩),
       ("x", ⟨"x", some "r", 1, 0, [], 1, 1⟩)] "r" ["R"] "x" (by decide)⟩

theorem foldl_extend {α : Type} (l : List α) (f : List String → α → List String)
    (g : α → List String) (hf : ∀ es x, f es x = es ++ g x) (init : List String) :
    l.foldl f init = init ++ l.flatMap g := by
  induction l generalizing init with
  | nil => simp
  | cons x t ih =>
      rw [List.foldl_cons, hf, ih, List.flatMap_cons, List.append_assoc]

theorem validate_inner_step (nodeIds : List String) (nodeId : String)
    (es : List String) (ia : Nat × CompactAction) :
    (match ia.2.n with
      | some target =>
          if target ≠ "" ∧ target ∉ nodeIds then es ++ [actionErrMsg nodeId ia.1 target]
          else es
      | none => es) =
      es ++ (match ia.2.n with
        | some target =>
            if target ≠ "" ∧ target ∉ nodeIds then [actionErrMsg nodeId ia.1 target] else []
        | none => []) := by
  cases ia.2.n with
  | none => simp
  | some target =>
      dsimp only
      split_ifs <;> simp

/-- Per-node violation messages: the parent message when the parent
reference dangles, then one message per action index whose target
dangles. -/
def nodeErrs (nodeIds : List String) (entry : String × CompactTreeNode) : List String :=
  (match entry.2.p with
   | some parentId =>
       if parentId ≠ "" ∧ parentId ∉ nodeIds then [parentErrMsg entry.1 parentId] else []
   | none => []) ++
  entry.2.a.enum.flatMap (fun ia =>
    match ia.2.n with
    | some target =>
        if target ≠ "" ∧ target ∉ nodeIds then [actionErrMsg entry.1 ia.1 target] else []
    | none => [])

theorem specErrors_eq_nodeErrs (tree : OptimizedTree) :
    specErrors tree =
      (if tree.root ∈ tree.nodes.map Prod.fst then []
        else [rootErrMsg tree.root]) ++
      tree.nodes.flatMap (nodeErrs (tree.nodes.map Prod.fst)) := by
  rfl

theorem validateCompactTree_errors (tree : OptimizedTree) :
    (validateCompactTree tree).errors = specErrors tree := by
  rw [specErrors_eq_nodeErrs]
  show tree.nodes.foldl _ _ = _
  rw [foldl_extend tree.nodes _ (nodeErrs (tree.nodes.map Prod.fst))]
  intro es entry
  show (entry.2.a.enum.foldl _ _) = _
  rw [foldl_extend entry.2.a.enum _
    (fun ia =>
      match ia.2.n with
      | some target =>
          if target ≠ "" ∧ target ∉ tree.nodes.map Prod.fst then
            [actionErrMsg entry.1 ia.1 target]
          else []
      | none => [])]
  · rw [nodeErrs]
    cases entry.2.p with
    | none => simp
    | some parentId =>
        dsimp only
        split_ifs <;> simp
  · intro es' ia
    exact validate_inner_step (tree.nodes.map Prod.fst) entry.1 es' ia

theorem nodeErrs_eq_nil_iff (nodeIds : List String) (entry : String × CompactTreeNode) :
    nodeErrs nodeIds entry = [] ↔
      ((∀ parentId, entry.2.p = some parentId → parentId ≠ "" → parentId ∈ nodeIds) ∧
       (∀ ia ∈ entry.2.a.enum, ∀ target, ia.2.n = some target → target ≠ "" →
          target ∈ nodeIds)) := by
  rw [nodeErrs, List.append_eq_nil]
  apply and_congr
  · cases hp : entry.2.p with
    | none => simp [hp]
    | some parentId =>
        dsimp only
        split_ifs with h
        · constructor
          · intro hfalse; simp at hfalse
          · intro hforall
            exact ((h.2 (hforall parentId rfl h.1)).elim)
        · constructor
          · intro _ pid hpid hne
            have hpe : parentId = pid := by injection hpid
            subst hpe
            by_cases hmem : parentId ∈ nodeIds
            · exact hmem
            · exact (h ⟨hne, hmem⟩).elim
          · intro _; rfl
  · rw [List.flatMap_eq_nil_iff]
    constructor
    · intro hall ia hia target htarget hne
      have := hall ia hia
      rw [htarget] at this
      dsimp only at this
      by_cases hmem : target ∈ nodeIds
      · exact hmem
      · rw [if_pos ⟨hne, hmem⟩] at this
        simp at this
    · intro hall ia hia
      cases hn : ia.2.n with
      | none => rfl
      | some target =>
          dsimp only
          split_ifs with h
          · exact ((h.2 (hall ia hia target hn h.1)).elim)
          · rfl

theorem specErrors_eq_nil_iff (tree : OptimizedTree) :
    specErrors tree = [] ↔ NoViolations tree := by
  rw [specErrors_eq_nodeErrs, List.append_eq_nil, NoViolations]
  apply and_congr
  · split_ifs with h <;> simp [h]
  · rw [List.flatMap_eq_nil_iff]
    constructor
    · intro hall
      constructor
      · intro e he parentId hp hne
        exact ((nodeErrs_eq_nil_iff _ e).mp (hall e he)).1 parentId hp hne
      · intro e he ia hia target htarget hne
        exact ((nodeErrs_eq_nil_iff _ e).mp (hall e he)).2 ia hia target htarget hne
    · intro hnv e he
      exact (nodeErrs_eq_nil_iff _ e).mpr
        ⟨fun parentId hp hne => hnv.1 e he parentId hp hne,
         fun ia hia target htarget hne => hnv.2 e he ia hia target htarget hne⟩

/-- C8: validation accumulates one message per violation — the produced
error list is exactly the spec-side enumeration of violation messages
(the root message when the declared root is not a key, a message naming
the node for every dangling parent reference, and a message naming the
node and the action index for every dangling action target, in map
order) — and the tree is declared valid exactly when the error list is
empty, which holds exactly when there is no violation. -/
theorem claim_C8 (tree : OptimizedTree) :
    (validateCompactTree tree).errors = specErrors tree ∧
    ((validateCompactTree tree).isValid = true ↔ (validateCompactTree tree).errors = []) ∧
    ((validateCompactTree tree).isValid = true ↔ NoViolations tree) := by
  have herr : (validateCompactTree tree).errors = specErrors tree :=
    validateCompactTree_errors tree
  have hv : (validateCompactTree tree).isValid =
      decide ((validateCompactTree tree).errors.length = 0) := rfl
  have hiff : (validateCompactTree tree).isValid = true ↔
      (validateCompactTree tree).errors = [] := by
    rw [hv]
    simp [List.length_eq_zero]
  refine ⟨herr, hiff, hiff.trans ?_⟩
  rw [herr]
  exact specErrors_eq_nil_iff tree

/-- Reachability along the edges the terminal-node traversal follows: the
start id reaches itself, and from a reachable id that is indexed and not
terminal every truthy action target is reachable (the traversal stops
descending at terminal nodes, so edges out of them are not followed). -/
inductive ReachT (nodes : NodeMap) (start : String) : String → Prop where
  | refl : ReachT nodes start start
  | step {b c : String} (node : CompactTreeNode) :
      ReachT nodes start b → List.lookup b nodes = some node →
      isTerminal node = false → c ∈ childTargets node → ReachT nodes start c

theorem traverseGo_visited_mono (nodes : NodeMap)
    (visited terminals worklist : List String) :
    ∀ x ∈ visited, x ∈ (traverseGo nodes visited terminals worklist).1 := by
  induction visited, terminals, worklist using traverseGo.induct nodes with
  | case1 visited terminals => simp [traverseGo_nil]
  | case2 visited terminals nodeId rest hv ih =>
      intro x hx
      rw [traverseGo_cons_visited nodes visited terminals rest nodeId hv]
      exact ih x hx
  | case3 visited terminals nodeId rest hv hl ih =>
      intro x hx
      rw [traverseGo_cons_none nodes visited terminals rest nodeId hv hl]
      exact ih x (List.mem_cons_of_mem _ hx)
  | case4 visited terminals nodeId rest hv node hl hterm ih =>
      intro x hx
      rw [traverseGo_cons_term nodes visited terminals rest nodeId node hv hl hterm]
      exact ih x (List.mem_cons_of_mem _ hx)
  | case5 visited terminals nodeId rest hv node hl hterm ih =>
      intro x hx
      rw [traverseGo_cons_nonterm nodes visited terminals rest nodeId node hv hl
        (by revert hterm; cases isTerminal node <;> simp)]
      exact ih x (List.mem_cons_of_mem _ hx)

theorem traverseGo_worklist_visited (nodes : NodeMap)
    (visited terminals worklist : List String) :
    ∀ x ∈ worklist, x ∈ (traverseGo nodes visited terminals worklist).1 := by
  induction visited, terminals, worklist using traverseGo.induct nodes with
  | case1 visited terminals => simp
  | case2 visited terminals nodeId rest hv ih =>
      intro x hx
      rw [traverseGo_cons_visited nodes visited terminals rest nodeId hv]
      rcases List.mem_cons.mp hx with rfl | hxr
      · exact traverseGo_visited_mono nodes visited terminals rest x hv
      · exact ih x hxr
  | case3 visited terminals nodeId rest hv hl ih =>
      intro x hx
      rw [traverseGo_cons_none nodes visited terminals rest nodeId hv hl]
      rcases List.mem_cons.mp hx with rfl | hxr
      · exact traverseGo_visited_mono nodes (x :: visited) terminals rest x (List.mem_cons_self x visited)
      · exact ih x hxr
  | case4 visited terminals nodeId rest hv node hl hterm ih =>
      intro x hx
      rw [traverseGo_cons_term nodes visited terminals rest nodeId node hv hl hterm]
      rcases List.mem_cons.mp hx with rfl | hxr
      · exact traverseGo_visited_mono nodes (x :: visited) (terminals ++ [x]) rest x
          (List.mem_cons_self x visited)
      · exact ih x hxr
  | case5 visited terminals nodeId rest hv node hl hterm ih =>
      have hterm' : isTerminal node = false := by revert hterm; cases isTerminal node <;> simp
      intro x hx
      rw [traverseGo_cons_nonterm nodes visited terminals rest nodeId node hv hl hterm']
      rcases List.mem_cons.mp hx with rfl | hxr
      · exact traverseGo_visited_mono nodes (x :: visited) terminals
          (childTargets node ++ rest) x (List.mem_cons_self x visited)
      · exact ih x (List.mem_append_right _ hxr)

theorem traverseGo_nodup (nodes : NodeMap) (visited terminals worklist : List String) :
    visited.Nodup → terminals.Nodup → (∀ x ∈ terminals, x ∈ visited) →
    (traverseGo nodes visited terminals worklist).1.Nodup ∧
    (traverseGo nodes visited terminals worklist).2.Nodup ∧
    (∀ x ∈ (traverseGo nodes visited terminals worklist).2,
      x ∈ (traverseGo nodes visited terminals worklist).1) := by
  induction visited, terminals, worklist using traverseGo.induct nodes with
  | case1 visited terminals =>
      intro h1 h2 h3
      simp only [traverseGo_nil]
      exact ⟨h1, h2, h3⟩
  | case2 visited terminals nodeId rest hv ih =>
      intro h1 h2 h3
      rw [traverseGo_cons_visited nodes visited terminals rest nodeId hv]
      exact ih h1 h2 h3
  | case3 visited terminals nodeId rest hv hl ih =>
      intro h1 h2 h3
      rw [traverseGo_cons_none nodes visited terminals rest nodeId hv hl]
      exact ih (List.nodup_cons.mpr ⟨hv, h1⟩) h2
        (fun x hx => List.mem_cons_of_mem _ (h3 x hx))
  | case4 visited terminals nodeId rest hv node hl hterm ih =>
      intro h1 h2 h3
      rw [traverseGo_cons_term nodes visited terminals rest nodeId node hv hl hterm]
      refine ih (List.nodup_cons.mpr ⟨hv, h1⟩) ?_ ?_
      · rw [List.nodup_append]
        refine ⟨h2, List.nodup_singleton _, ?_⟩
        intro x hx hxs
        rw [List.mem_singleton] at hxs
        subst hxs
        exact hv (h3 x hx)
      · intro x hx
        rcases List.mem_append.mp hx with hxt | hxs
        · exact List.mem_cons_of_mem _ (h3 x hxt)
        · rw [List.mem_singleton] at hxs
          subst hxs
          exact List.mem_cons_self _ _
  | case5 visited terminals nodeId rest hv node hl hterm ih =>
      intro h1 h2 h3
      have hterm' : isTerminal node = false := by revert hterm; cases isTerminal node <;> simp
      rw [traverseGo_cons_nonterm nodes visited terminals rest nodeId node hv hl hterm']
      exact ih (List.nodup_cons.mpr ⟨hv, h1⟩) h2
        (fun x hx => List.mem_cons_of_mem _ (h3 x hx))

theorem traverseGo_terminals_terminal (nodes : NodeMap)
    (visited terminals worklist : List String) :
    ∀ x ∈ (traverseGo nodes visited terminals worklist).2,
      x ∈ terminals ∨ ∃ node, List.lookup x nodes = some node ∧ isTerminal node = true := by
  induction visited, terminals, worklist using traverseGo.induct nodes with
  | case1 visited terminals =>
      simp only [traverseGo_nil]
      intro x hx
      exact Or.inl hx
  | case2 visited terminals nodeId rest hv ih =>
      rw [traverseGo_cons_visited nodes visited terminals rest nodeId hv]
      exact ih
  | case3 visited terminals nodeId rest hv hl ih =>
      rw [traverseGo_cons_none nodes visited terminals rest nodeId hv hl]
      exact ih
  | case4 visited terminals nodeId rest hv node hl hterm ih =>
      rw [traverseGo_cons_term nodes visited terminals rest nodeId node hv hl hterm]
      intro x hx
      rcases ih x hx with hxt | hex
      · rcases List.mem_append.mp hxt with hxt' | hxs
        · exact Or.inl hxt'
        · rw [List.mem_singleton] at hxs
          subst hxs
          exact Or.inr ⟨node, hl, hterm⟩
      · exact Or.inr hex
  | case5 visited terminals nodeId rest hv node hl hterm ih =>
      have hterm' : isTerminal node = false := by revert hterm; cases isTerminal node <;> simp
      rw [traverseGo_cons_nonterm nodes visited terminals rest nodeId node hv hl hterm']
      exact ih

theorem traverseGo_sound (nodes : NodeMap) (start : String)
    (visited terminals worklist : List String) :
    (∀ x ∈ worklist, ReachT nodes start x) →
    ∀ x ∈ (traverseGo nodes visited terminals worklist).2,
      x ∈ terminals ∨ ReachT nodes start x := by
  induction visited, terminals, worklist using traverseGo.induct nodes with
  | case1 visited terminals =>
      intro _ x hx
      simp only [traverseGo_nil] at hx
      exact Or.inl hx
  | case2 visited terminals nodeId rest hv ih =>
      intro hwl
      rw [traverseGo_cons_visited nodes visited terminals rest nodeId hv]
      exact ih (fun x hx => hwl x (List.mem_cons_of_mem _ hx))
  | case3 visited terminals nodeId rest hv hl ih =>
      intro hwl
      rw [traverseGo_cons_none nodes visited terminals rest nodeId hv hl]
      exact ih (fun x hx => hwl x (List.mem_cons_of_mem _ hx))
  | case4 visited terminals nodeId rest hv node hl hterm ih =>
      intro hwl
      rw [traverseGo_cons_term nodes visited terminals rest nodeId node hv hl hterm]
      intro x hx
      rcases ih (fun y hy => hwl y (List.mem_cons_of_mem _ hy)) x hx with hxt | hr
      · rcases List.mem_append.mp hxt with hxt' | hxs
        · exact Or.inl hxt'
        · rw [List.mem_singleton] at hxs
          subst hxs
          exact Or.inr (hwl x (List.mem_cons_self _ _))
      · exact Or.inr hr
  | case5 visited terminals nodeId rest hv node hl hterm ih =>
      intro hwl
      have hterm' : isTerminal node = false := by revert hterm; cases isTerminal node <;> simp
      rw [traverseGo_cons_nonterm nodes visited terminals rest nodeId node hv hl hterm']
      refine ih ?_
      intro x hx
      rcases List.mem_append.mp hx with hxc | hxr
      · exact ReachT.step node (hwl nodeId (List.mem_cons_self _ _)) hl hterm' hxc
      · exact hwl x (List.mem_cons_of_mem _ hxr)

/-- Invariant of the terminal traversal: every visited indexed id has
already been fully processed — recorded if terminal, its children either
visited or still pending otherwise. -/
def TraverseInv (nodes : NodeMap) (visited terminals worklist : List String) : Prop :=
  ∀ x ∈ visited, ∀ node, List.lookup x nodes = some node →
    (isTerminal node = true → x ∈ terminals) ∧
    (isTerminal node = false → ∀ c ∈ childTargets node, c ∈ visited ∨ c ∈ worklist)

theorem traverseGo_closed (nodes : NodeMap) (visited terminals worklist : List String) :
    TraverseInv nodes visited terminals worklist →
    ∀ x ∈ (traverseGo nodes visited terminals worklist).1, ∀ node,
      List.lookup x nodes = some node →
      (isTerminal node = true → x ∈ (traverseGo nodes visited terminals worklist).2) ∧
      (isTerminal node = false → ∀ c ∈ childTargets node,
        c ∈ (traverseGo nodes visited terminals worklist).1) := by
  induction visited, terminals, worklist using traverseGo.induct nodes with
  | case1 visited terminals =>
      intro hinv x hx node hlx
      simp only [traverseGo_nil] at hx ⊢
      refine ⟨(hinv x hx node hlx).1, ?_⟩
      intro hnt c hc
      rcases (hinv x hx node hlx).2 hnt c hc with h | h
      · exact h
      · simp at h
  | case2 visited terminals nodeId rest hv ih =>
      intro hinv
      rw [traverseGo_cons_visited nodes visited terminals rest nodeId hv]
      refine ih ?_
      intro x hx node hlx
      refine ⟨(hinv x hx node hlx).1, ?_⟩
      intro hnt c hc
      rcases (hinv x hx node hlx).2 hnt c hc with h | h
      · exact Or.inl h
      · rcases List.mem_cons.mp h with rfl | hcr
        · exact Or.inl hv
        · exact Or.inr hcr
  | case3 visited terminals nodeId rest hv hl ih =>
      intro hinv
      rw [traverseGo_cons_none nodes visited terminals rest nodeId hv hl]
      refine ih ?_
      intro x hx node hlx
      rcases List.mem_cons.mp hx with rfl | hxv
      · rw [hl] at hlx; cases hlx
      · refine ⟨(hinv x hxv node hlx).1, ?_⟩
        intro hnt c hc
        rcases (hinv x hxv node hlx).2 hnt c hc with h | h
        · exact Or.inl (List.mem_cons_of_mem _ h)
        · rcases List.mem_cons.mp h with rfl | hcr
          · exact Or.inl (List.mem_cons_self _ _)
          · exact Or.inr hcr
  | case4 visited terminals nodeId rest hv node hl hterm ih =>
      intro hinv
      rw [traverseGo_cons_term nodes visited terminals rest nodeId node hv hl hterm]
      refine ih ?_
      intro x hx node' hlx
      rcases List.mem_cons.mp hx with rfl | hxv
      · rw [hl] at hlx
        injection hlx with hlx
        subst hlx
        refine ⟨fun _ => List.mem_append_right _ (List.mem_singleton_self _), ?_⟩
        intro hnt
        rw [hterm] at hnt
        cases hnt
      · refine ⟨fun ht => List.mem_append_left _ ((hinv x hxv node' hlx).1 ht), ?_⟩
        intro hnt c hc
        rcases (hinv x hxv node' hlx).2 hnt c hc with h | h
        · exact Or.inl (List.mem_cons_of_mem _ h)
        · rcases List.mem_cons.mp h with rfl | hcr
          · exact Or.inl (List.mem_cons_self _ _)
          · exact Or.inr hcr
  | case5 visited terminals nodeId rest hv node hl hterm ih =>
      intro hinv
      have hterm' : isTerminal node = false := by revert hterm; cases isTerminal node <;> simp
      rw [traverseGo_cons_nonterm nodes visited terminals rest nodeId node hv hl hterm']
      refine ih ?_
      intro x hx node' hlx
      rcases List.mem_cons.mp hx with rfl | hxv
      · rw [hl] at hlx
        injection hlx with hlx
        subst hlx
        refine ⟨?_, ?_⟩
        · intro ht
          rw [hterm'] at ht
          cases ht
        · intro _ c hc
          exact Or.inr (List.mem_append_left _ hc)
      · refine ⟨(hinv x hxv node' hlx).1, ?_⟩
        intro hnt c hc
        rcases (hinv x hxv node' hlx).2 hnt c hc with h | h
        · exact Or.inl (List.mem_cons_of_mem _ h)
        · rcases List.mem_cons.mp h with rfl | hcr
          · exact Or.inl (List.mem_cons_self _ _)
          · exact Or.inr (List.mem_append_right _ hcr)

/-- C7: the terminal-node traversal terminates on every node map and
start id — it is a total function built on a well-founded visited-set
recursion, with no tree-shape assumption — the visited list it builds and
the terminal list it returns hold no duplicates (each node is visited at
most once), and the returned ids are exactly the ids reachable along
non-terminal expansion that are indexed and flagged terminal. -/
theorem claim_C7 (nodes : NodeMap) (startNodeId : String) :
    (traverseGo nodes [] [] [startNodeId]).1.Nodup ∧
    (getTerminalNodes nodes startNodeId).Nodup ∧
    ∀ t, t ∈ getTerminalNodes nodes startNodeId ↔
      (ReachT nodes startNodeId t ∧
        ∃ node, List.lookup t nodes = some node ∧ isTerminal node = true) := by
  have hnodup := traverseGo_nodup nodes [] [] [startNodeId]
    List.nodup_nil List.nodup_nil (by simp)
  have hclosed := traverseGo_closed nodes [] [] [startNodeId]
    (by intro x hx; simp at hx)
  have hreach : ∀ t, ReachT nodes startNodeId t →
      t ∈ (traverseGo nodes [] [] [startNodeId]).1 := by
    intro t hr
    induction hr with
    | refl =>
        exact traverseGo_worklist_visited nodes [] [] [startNodeId] startNodeId (by simp)
    | step node hb hl hnt hc ih =>
        exact (hclosed _ ih node hl).2 hnt _ hc
  simp only [getTerminalNodes]
  refine ⟨hnodup.1, hnodup.2.1, ?_⟩
  intro t
  constructor
  · intro ht
    have hr := traverseGo_sound nodes startNodeId [] [] [startNodeId]
      (by intro x hx; rw [List.mem_singleton] at hx; subst hx; exact ReachT.refl) t ht
    rcases hr with h0 | hr
    · simp at h0
    · rcases traverseGo_terminals_terminal nodes [] [] [startNodeId] t ht with h0 | hex
      · simp at h0
      · exact ⟨hr, hex⟩
  · rintro ⟨hr, node, hl, hterm⟩
    exact (hclosed t (hreach t hr) node hl).1 hterm
